import Mathlib

/-!
Verification of the cache-backed, request-deduplicating upstream client of
the feddit_api service (src/feddit_api/main.py).

The development shallowly embeds the relevant Python code:

* a model of the cachetools TTLCache used as the global request_cache
  (main.py line 39): a fixed-capacity, lazily time-expiring key-value store
  whose overflow eviction removes the oldest-inserted entry;
* the cache-key computation FedditClient._get_cache_key (lines 88-90);
* the cached fetch FedditClient._make_request (lines 98-118), in two forms:
  a sequential state-passing function, and a small-step transition system for
  N concurrent callers with one shared per-key lock (asyncio cooperative
  scheduling; the transition system allows a superset of the real
  interleavings, so safety theorems proved over it carry over);
* the name resolution FedditClient.get_subfeddit_by_name (lines 120-147);
* the sentiment-augmenting route handler get_subfeddit_comments
  (lines 178-233), with the reference-aliasing of the cached payload made
  explicit: the dict returned by _make_request is the very object stored in
  request_cache, so the in-place mutations of the handler are modelled as
  writes to the cached value.

Machine integers and timestamps are modelled as Nat/Int; the TextBlob
polarity (a float) is treated as an opaque oracle.
-/

namespace FedditApi

/-! ## Configuration defaults (main.py lines 19-25; environment overrides are
not modelled, the theorems are parametric in the configured values). -/

def DEFAULT_CACHE_TTL : Nat := 60

def DEFAULT_CACHE_SIZE : Nat := 100

def DEFAULT_COMMENT_LIMIT : Int := 25

/-! ## TTLCache model

Model of cachetools.TTLCache as used for request_cache (line 39).
An entry is a triple of key, value and expiry time (insertion time plus ttl).
The entry list is kept in dict insertion order; overwriting a key keeps its
position. Lookup and membership are lazy about expiry: an expired entry is
merely treated as absent. Insertion first drops expired entries, then
inserts, then evicts from the front (the oldest-inserted entries) while the
capacity is exceeded, mirroring TTLCache.__setitem__ / popitem. -/

structure TTLCache (K : Type) (V : Type) where
  maxsize : Nat
  ttl : Nat
  entries : List (K × V × Nat)
deriving Repr

namespace TTLCache

variable {K V : Type} [DecidableEq K]

/-- An entry is live (not yet expired) at time now. -/
def liveAt (now : Nat) (e : K × V × Nat) : Bool :=
  decide (now < e.2.2)

/-- Drop all expired entries (TTLCache.expire). -/
def expire (c : TTLCache K V) (now : Nat) : TTLCache K V :=
  { c with entries := c.entries.filter (liveAt now) }

/-- Find the stored entry for a key, expired or not. -/
def findEntry (c : TTLCache K V) (k : K) : Option (K × V × Nat) :=
  c.entries.find? (fun e => e.1 == k)

/-- Membership test, lazily treating expired entries as absent
(TTLCache.__contains__, used by the expression cache_key in request_cache). -/
def containsKey (c : TTLCache K V) (k : K) (now : Nat) : Bool :=
  match c.findEntry k with
  | some e => liveAt now e
  | none => false

/-- Lookup, lazily treating expired entries as absent. This combines the
membership test of line 102 with the subsequent item access of line 103. -/
def lookup (c : TTLCache K V) (k : K) (now : Nat) : Option V :=
  match c.findEntry k with
  | some e => if liveAt now e then some e.2.1 else none
  | none => none

/-- Number of stored entries. -/
def size (c : TTLCache K V) : Nat :=
  c.entries.length

/-- Insertion (request_cache[cache_key] = data, line 113; semantics of
TTLCache.__setitem__): expire stale entries, insert the new binding or
overwrite an existing one in place with a refreshed expiry, then evict
oldest-inserted entries from the front while over capacity (popitem takes
the first key in dict insertion order). -/
def put (c : TTLCache K V) (k : K) (v : V) (now : Nat) : TTLCache K V :=
  let es0 := (c.expire now).entries
  let es :=
    if (es0.find? (fun e => e.1 == k)).isSome then
      es0.map (fun e => if e.1 == k then (k, v, now + c.ttl) else e)
    else
      es0 ++ [(k, v, now + c.ttl)]
  { c with entries := es.drop (es.length - c.maxsize) }

/-- In-place mutation of the value stored for a key, leaving insertion order
and expiry untouched. This models a Python caller mutating, through an
aliased reference, the dict object held by the cache; it is not an operation
of TTLCache itself. -/
def mutateValue (c : TTLCache K V) (k : K) (f : V → V) : TTLCache K V :=
  { c with entries := c.entries.map (fun e => if e.1 == k then (e.1, f e.2.1, e.2.2) else e) }

/-- The empty cache with the given configuration. -/
def emptyCache (maxsize ttl : Nat) : TTLCache K V :=
  ⟨maxsize, ttl, []⟩

/-- Insert bindings for the given keys in order, all at time zero. -/
def insertAll (c : TTLCache K V) (v : K → V) (ks : List K) : TTLCache K V :=
  ks.foldl (fun c k => c.put k (v k) 0) c

end TTLCache

/-! ## Request keys (FedditClient._get_cache_key, lines 88-90)

The Python code builds the key as an f-string of the url and
str(sorted(params.items())). A params dict maps string names to the integer
values used at every call site (limit, skip, subfeddit_id); items() yields
the pairs in insertion order and sorted() orders them lexicographically as
tuples. Since a dict never holds two pairs with the same name, sorting by
name alone already determines the order; the embedding nevertheless sorts by
the full pair, exactly like Python tuple comparison. -/

/-- Code-point comparison of character lists: the order Python uses between
strings. Written as a plain recursion over Nat code points so the kernel can
evaluate it. -/
def charListLe : List Char → List Char → Bool
  | [], _ => true
  | _ :: _, [] => false
  | a :: as, b :: bs =>
    if a.toNat < b.toNat then true
    else if b.toNat < a.toNat then false
    else charListLe as bs

/-- Lexicographic order on (name, value) pairs, exactly as Python compares
the tuples produced by dict items: by name first, by value on equal names. -/
def pairLe (a b : String × Int) : Prop :=
  (if a.1 == b.1 then decide (a.2 ≤ b.2) else charListLe a.1.data b.1.data) = true

instance : DecidableRel pairLe := fun a b => by
  unfold pairLe
  infer_instance

/-- The params sorted by name then value: sorted(params.items()). -/
def sortedParams (params : List (String × Int)) : List (String × Int) :=
  params.insertionSort pairLe

/-- Python repr of one (name, value) pair, as it appears inside
str(sorted(params.items())). -/
def reprPair (p : String × Int) : String :=
  "(\x27" ++ p.1 ++ "\x27, " ++ toString p.2 ++ ")"

/-- Python str of the sorted list of pairs. -/
def reprParams (ps : List (String × Int)) : String :=
  "[" ++ String.intercalate ", " (ps.map reprPair) ++ "]"

/-- FedditClient._get_cache_key (lines 88-90): the deduplication key for a
request is the url followed by a colon and the repr of the sorted items. -/
def get_cache_key (url : String) (params : List (String × Int)) : String :=
  url ++ ":" ++ reprParams (sortedParams params)

/-! ## Errors and the deduplicated fetch (FedditClient._make_request, lines 98-118)

The httpx failure modes that reach the except clause of line 115 (all are
subclasses of httpx.HTTPError): connection-level failure, timeout, and the
non-2xx status error raised by response.raise_for_status on line 111. The
handler logs an error message naming the offending url (line 116-117) and
raises HTTPException(status_code=500, detail=str(e)) (line 118). -/

inductive NetErr where
  | connectError (msg : String)
  | timeout (msg : String)
  | non2xx (status : Nat) (msg : String)
deriving DecidableEq, Repr

/-- The str(e) of the underlying httpx error. -/
def netErrMsg : NetErr → String
  | .connectError m => m
  | .timeout m => m
  | .non2xx _ m => m

/-- A raised fastapi HTTPException: status code and detail. -/
structure HTTPEx where
  status : Nat
  detail : String
deriving DecidableEq, Repr

/-- The diagnostic logged on line 116: it names the offending url. -/
def errorMsg (url : String) (e : NetErr) : String :=
  "Error making request to " ++ url ++ ": " ++ netErrMsg e

/-- The detail of the 404 raised on lines 133-137 when no title matches. -/
def notFoundDetail (name : String) : String :=
  "Subfeddit with name \x27" ++ name ++ "\x27 not found"

/-- Observable outcome of one _make_request call: the returned payload or the
raised exception, the cache state afterwards, whether the network GET of
line 110 was issued, and the error log emitted. -/
structure FetchOutcome (V : Type) where
  result : Except HTTPEx V
  cache : TTLCache String V
  networkCalled : Bool
  log : List String

/-- FedditClient._make_request (lines 98-118) as a sequential state-passing
function: compute the cache key (line 100), return a valid cached entry
(lines 102-103), acquire the per-key lock (line 105; free in this
single-caller model, the contended case is the transition system below),
re-check the cache inside the lock (lines 106-107), perform the GET
(line 110, modelled by the given network result), store the payload on
success (lines 112-114), log and raise a 500 on failure (lines 115-118). -/
def make_request {V : Type} (c : TTLCache String V) (url : String)
    (params : List (String × Int)) (now : Nat) (net : Except NetErr V) :
    FetchOutcome V :=
  match c.lookup (get_cache_key url params) now with
  | some v => ⟨.ok v, c, false, []⟩
  | none =>
    match c.lookup (get_cache_key url params) now with
    | some v => ⟨.ok v, c, false, []⟩
    | none =>
      match net with
      | .ok data => ⟨.ok data, c.put (get_cache_key url params) data now, true, []⟩
      | .error e => ⟨.error ⟨500, netErrMsg e⟩, c, true, [errorMsg url e]⟩

/-! ## Name resolution (FedditClient.get_subfeddit_by_name, lines 120-147)

The listing payload is a dict that may or may not carry the expected fields;
each listing entry may lack its id or title key. The code reads
data.get with a default of the empty list for the subfeddits field
(line 125), then scans for a case-insensitively matching title (lines
128-131); an entry without a title key raises a KeyError there, which the
generic except clause of lines 144-147 converts to a 500. The two fetch
operations are abstracted as functions so the theorems can instantiate the
upstream behaviour; the fetch layer itself is verified above. -/

structure SubEntry where
  id : Option Int
  title : Option String
deriving DecidableEq, Repr

structure ListingPayload where
  subfeddits : Option (List SubEntry)
deriving DecidableEq, Repr

/-- Python str.lower, for the ASCII titles and names the service compares
(kernel-evaluable, unlike String.toLower). -/
def strLower (s : String) : String :=
  ⟨s.data.map Char.toLower⟩

/-- The match condition of line 129: the lowercased title equals the
lowercased requested name. An entry without a title never matches (in the
code it raises instead; findSubfeddit carries that). -/
def titleMatches (name : String) (s : SubEntry) : Bool :=
  match s.title with
  | some t => strLower t == strLower name
  | none => false

/-- The generator expression of lines 128-131: scan the entries in order,
reading the title key of each inspected entry (KeyError when absent),
stopping at the first case-insensitive match. -/
def findSubfeddit (name : String) : List SubEntry → Except String (Option SubEntry)
  | [] => .ok none
  | s :: rest =>
    match s.title with
    | none => .error "KeyError: \x27title\x27"
    | some t => if strLower t == strLower name then .ok (some s) else findSubfeddit name rest

/-- FedditClient.get_subfeddit_by_name (lines 120-147): fetch the listing
with a fixed limit of 100 (line 124), default a missing subfeddits field to
the empty list (line 125), search for the title (lines 128-131), raise a 404
when nothing matches (lines 133-137), otherwise fetch and return the detail
record for the matched id (line 140). HTTPExceptions propagate unchanged
(lines 142-143); any other exception becomes a 500 (lines 144-147). -/
def get_subfeddit_by_name {D : Type}
    (fetchListing : List (String × Int) → Except HTTPEx ListingPayload)
    (fetchDetail : List (String × Int) → Except HTTPEx D)
    (subfeddit_name : String) : Except HTTPEx D :=
  match fetchListing [("limit", 100)] with
  | .error e => .error e
  | .ok data =>
    match findSubfeddit subfeddit_name (data.subfeddits.getD []) with
    | .error msg => .error ⟨500, msg⟩
    | .ok none => .error ⟨404, notFoundDetail subfeddit_name⟩
    | .ok (some s) =>
      match s.id with
      | none => .error ⟨500, "KeyError: \x27id\x27"⟩
      | some i => fetchDetail [("subfeddit_id", i)]

/-- Modelled from the spec: the upstream listing endpoint (spec section 6,
GET /api/v1/subfeddits/ with a limit parameter) returns the first limit
entries of the full upstream listing. The upstream service is an external
collaborator, not part of this repository. -/
def upstreamListing (full : List SubEntry) (params : List (String × Int)) :
    Except HTTPEx ListingPayload :=
  .ok ⟨some (full.take ((params.lookup "limit").getD 0).toNat)⟩

/-! ## Sentiment augmentation and the comments route handler
(get_subfeddit_comments, lines 178-233)

The comments payload is the dict fetched from the upstream comments
endpoint. The handler receives from _make_request the very dict object that
request_cache stores (a cache hit returns the stored object, lines 103 and
107; a miss stores data and then returns it, lines 113-114), and then
mutates that object in place: line 198 writes a sentiment key into each
comment dict, line 202 rebinds the comments key to the filtered list, lines
211-219 sort the list it holds, and lines 222-225 add four more keys.
The embedding makes this aliasing explicit by writing the mutated payload
back into the cached entry (mutateValue), which is precisely the observable
effect of mutating the shared object. -/

structure SentimentAnalysis where
  polarity : Int
  classification : String
deriving DecidableEq, Repr

/-- analyze_sentiment (lines 65-70). The TextBlob polarity is a float in
[-1, 1]; it is modelled as an opaque integer-valued oracle (say in
thousandths), which preserves the classification logic of line 69: positive
above zero, negative below zero, neutral at zero. -/
def analyze_sentiment (polarityOf : String → Int) (text : String) : SentimentAnalysis :=
  ⟨polarityOf text,
    if polarityOf text > 0 then "positive"
    else if polarityOf text < 0 then "negative"
    else "neutral"⟩

/-- One comment dict of the upstream payload. The sentiment field is absent
(none) in the raw upstream data and set by the handler at line 198. -/
structure CommentInfo where
  id : Int
  username : String
  text : String
  created_at : Int
  sentiment : Option SentimentAnalysis
deriving DecidableEq, Repr

/-- The comments payload dict. subfeddit_id and comments come from the
upstream; subfeddit_name, sort_by, sort_order and filter_by are absent in
the raw payload and added by the handler at lines 222-225. -/
structure CommentsData where
  subfeddit_id : Int
  comments : List CommentInfo
  subfeddit_name : Option String
  sort_by : Option String
  sort_order : Option String
  filter_by : Option String
deriving DecidableEq, Repr

/-- The params dict of the comments fetch (lines 151-154). -/
def commentsParams (sid limit skip : Int) : List (String × Int) :=
  [("subfeddit_id", sid), ("limit", limit), ("skip", skip)]

/-- The polarity key read by the sort of lines 211-214; every comment has a
sentiment by then (set at line 198). -/
def polarityKey (cm : CommentInfo) : Int :=
  (cm.sentiment.map (fun s => s.polarity)).getD 0

/-- Observable outcome of one route-handler run. -/
structure HandlerOutcome where
  response : Except HTTPEx CommentsData
  cache : TTLCache String CommentsData
  networkCalled : Bool

/-- get_subfeddit_comments (lines 193-227) after name resolution: fetch the
comments payload through _make_request (line 193), set the sentiment of
every comment (lines 196-198), filter by classification when requested
(lines 201-205), sort when requested (lines 207-219; Python list.sort is a
stable sort, modelled by the stable insertionSort), add the response keys
(lines 222-225). All of these updates act on the dict object shared with
request_cache, so the cached entry ends up holding the mutated payload. -/
def get_subfeddit_comments_core (polarityOf : String → Int)
    (c : TTLCache String CommentsData) (subfeddit_name : String)
    (sid limit skip : Int) (now : Nat) (net : Except NetErr CommentsData)
    (sort_by sort_order filter_by : Option String) : HandlerOutcome :=
  let r := make_request c "/api/v1/comments/" (commentsParams sid limit skip) now net
  match r.result with
  | .error e => ⟨.error e, r.cache, r.networkCalled⟩
  | .ok data =>
    let d1 : CommentsData := { data with
      comments := data.comments.map
        (fun cm => { cm with sentiment := some (analyze_sentiment polarityOf cm.text) }) }
    let d2 : CommentsData :=
      match filter_by with
      | some f => { d1 with
          comments := d1.comments.filter
            (fun cm => ((cm.sentiment.map (fun s => s.classification)).getD "") == f) }
      | none => d1
    let reverse := sort_order == some "desc"
    let d3 : CommentsData :=
      match sort_by with
      | some s =>
        if s == "polarity" then
          { d2 with
            comments := d2.comments.insertionSort
              (fun a b => if reverse then polarityKey b ≤ polarityKey a
                else polarityKey a ≤ polarityKey b) }
        else if s == "created_at" then
          { d2 with
            comments := d2.comments.insertionSort
              (fun a b => if reverse then b.created_at ≤ a.created_at
                else a.created_at ≤ b.created_at) }
        else d2
      | none => d2
    let d4 : CommentsData := { d3 with
      subfeddit_name := some subfeddit_name, sort_by := sort_by,
      sort_order := sort_order, filter_by := filter_by }
    ⟨.ok d4,
      r.cache.mutateValue
        (get_cache_key "/api/v1/comments/" (commentsParams sid limit skip)) (fun _ => d4),
      r.networkCalled⟩

/-- A one-comment upstream payload used to exhibit the cache mutation. -/
def rawCommentsDemo : CommentsData :=
  ⟨1, [⟨1, "u1", "great", 100, none⟩], none, none, none, none⟩

/-! ## Concurrent deduplication (lines 100-114 under asyncio)

N callers run _make_request concurrently for one and the same key on the
asyncio event loop, against an upstream that answers with the payload p.
Control changes hands only at suspension points; the model cuts each caller
into atomic steps at least as fine as the real suspension points, so every
real interleaving is one of the modelled ones:

* check: the cache test of lines 102-103 (done on a hit, else on to the
  lock);
* acquire: acquiring the free per-key asyncio.Lock of line 105 together
  with the re-check of lines 106-107 (on a hit the lock is released at once
  and the caller is done; on a miss the caller starts the network GET and
  suspends, still holding the lock);
* complete: the GET of line 110 finishes, the payload is stored (line 113)
  and the lock is released when the async-with block exits.

A caller whose acquire finds the lock held simply stays in waitingLock
until the holder completes, which is how asyncio queues lock waiters. -/

inductive CallerState (V : Type) where
  | notStarted
  | waitingLock
  | fetching
  | done (result : V) (didNetwork : Bool)
deriving DecidableEq, Repr

/-- Whether the caller has returned. -/
def CallerState.isDone {V : Type} : CallerState V → Bool
  | .done _ _ => true
  | _ => false

/-- Whether the caller has returned and issued the real network GET. -/
def CallerState.didNet {V : Type} : CallerState V → Bool
  | .done _ w => w
  | _ => false

/-- Shared state: the cache entry for the key, the holder of the per-key
lock, and the state of each of the n callers. -/
structure DedupState (n : Nat) (V : Type) where
  cache : Option V
  lockHolder : Option (Fin n)
  callers : Fin n → CallerState V

/-- All callers about to run _make_request, no cache entry, lock free. -/
def dedupInit (n : Nat) (V : Type) : DedupState n V :=
  ⟨none, none, fun _ => .notStarted⟩

/-- One atomic step of one caller (the scheduler picks any enabled one). -/
inductive DedupStep (n : Nat) (V : Type) (p : V) :
    DedupState n V → DedupState n V → Prop where
  | checkHit (s : DedupState n V) (i : Fin n) (v : V) :
      s.callers i = .notStarted → s.cache = some v →
      DedupStep n V p s
        { s with callers := Function.update s.callers i (.done v false) }
  | checkMiss (s : DedupState n V) (i : Fin n) :
      s.callers i = .notStarted → s.cache = none →
      DedupStep n V p s
        { s with callers := Function.update s.callers i .waitingLock }
  | acquireHit (s : DedupState n V) (i : Fin n) (v : V) :
      s.callers i = .waitingLock → s.lockHolder = none → s.cache = some v →
      DedupStep n V p s
        { s with callers := Function.update s.callers i (.done v false) }
  | acquireMiss (s : DedupState n V) (i : Fin n) :
      s.callers i = .waitingLock → s.lockHolder = none → s.cache = none →
      DedupStep n V p s
        { s with lockHolder := some i,
                 callers := Function.update s.callers i .fetching }
  | complete (s : DedupState n V) (i : Fin n) :
      s.callers i = .fetching → s.lockHolder = some i →
      DedupStep n V p s
        { cache := some p, lockHolder := none,
          callers := Function.update s.callers i (.done p true) }

/-- The inductive invariant of the deduplication protocol. -/
structure DedupInv (n : Nat) (V : Type) (p : V) (s : DedupState n V) : Prop where
  lockFetch : ∀ i, s.lockHolder = some i → s.callers i = .fetching
  fetchState : ∀ i, s.callers i = .fetching → s.lockHolder = some i ∧ s.cache = none
  cacheVal : ∀ v, s.cache = some v → v = p
  doneVal : ∀ i v w, s.callers i = .done v w → v = p
  doneHitCache : ∀ i v, s.callers i = .done v false → s.cache.isSome = true
  netNone : s.cache = none → ∀ i, (s.callers i).didNet = false
  netOne : s.cache.isSome = true → ∃! i, (s.callers i).didNet = true

/-- The final state of a concrete two-caller schedule: caller 0 misses,
fetches and stores 7; caller 1 then hits the filled cache. -/
def dedupDemoFinal : DedupState 2 Nat :=
  { cache := some 7, lockHolder := none,
    callers := Function.update (Function.update (Function.update (Function.update
      (fun _ => CallerState.notStarted) 0 .waitingLock) 0 .fetching) 0 (.done 7 true))
      1 (.done 7 false) }

/-! ## Theorems

Everything below is propositional: the properties of the embedded
definitions above, one main theorem per claim of the specification, each
with its witness instantiation when it carries hypotheses. -/

namespace TTLCache

variable {K V : Type} [DecidableEq K]

/-- Eviction never lets the store exceed its capacity. -/
theorem put_size_le (c : TTLCache K V) (k : K) (v : V) (now : Nat) :
    (c.put k v now).size ≤ c.maxsize := by
  unfold put size
  simp only [List.length_drop]
  omega

/-- A key absent (or expired) at some time is still absent at any later time:
entries are only ever removed, never revived, and expiry is monotone. -/
theorem lookup_none_mono (c : TTLCache K V) (k : K) (now now2 : Nat)
    (hle : now ≤ now2) (h : c.lookup k now = none) : c.lookup k now2 = none := by
  unfold lookup at *
  cases hfind : c.findEntry k with
  | none => simp [hfind]
  | some e =>
    rw [hfind] at h
    by_cases hlive : liveAt now e
    · simp [hlive] at h
    · have : ¬ liveAt now2 e := by
        unfold liveAt at *
        simp only [decide_eq_true_eq] at *
        omega
      simp [hfind, this]

/-! ## Cache insertion retrieves the stored value -/

/-- Replacing every entry of a given key rewrites the first match found. -/
theorem find?_map_replace (k : K) (v : V) (t : Nat) :
    ∀ (l : List (K × V × Nat)), (l.find? (fun e => e.1 == k)).isSome →
      (l.map (fun e => if e.1 == k then (k, v, t) else e)).find? (fun e => e.1 == k) =
        some (k, v, t) := by
  intro l
  induction l with
  | nil => intro h; simp [List.find?] at h
  | cons e rest ih =>
    intro h
    by_cases he : (e.1 == k) = true
    · simp only [List.map_cons, if_pos he]
      exact List.find?_cons_of_pos _ (by simp)
    · have he2 : (e.1 == k) = false := by
        cases h2 : (e.1 == k) with
        | true => exact absurd h2 he
        | false => rfl
      simp only [List.map_cons, if_neg he]
      rw [List.find?_cons_of_neg _ (by simp [he2])]
      apply ih
      rwa [List.find?_cons_of_neg _ (by simp [he2])] at h

/-- After a put, the key is retrievable with the stored value at the very
time of insertion, provided the capacity is at least one, the ttl is
positive, and the cache was within capacity. -/
theorem lookup_put_self (c : TTLCache K V) (k : K) (v : V) (now : Nat)
    (hm : 1 ≤ c.maxsize) (ht : 1 ≤ c.ttl) (hsize : c.size ≤ c.maxsize) :
    (c.put k v now).lookup k now = some v := by
  have hlive : liveAt now (k, v, now + c.ttl) = true := by
    unfold liveAt
    simp only [decide_eq_true_eq]
    omega
  have hsize2 : c.entries.length ≤ c.maxsize := hsize
  simp only [put, lookup, findEntry, expire]
  have hlen0 : (c.entries.filter (liveAt now)).length ≤ c.maxsize :=
    le_trans (List.length_filter_le _ _) hsize2
  split_ifs with hfind
  · have hdrop :
        ((c.entries.filter (liveAt now)).map
            (fun e => if e.1 == k then (k, v, now + c.ttl) else e)).length - c.maxsize = 0 := by
      rw [List.length_map]
      omega
    rw [hdrop, List.drop_zero, find?_map_replace k v (now + c.ttl) _ hfind]
    simp [hlive]
  · have hnone : (c.entries.filter (liveAt now)).find? (fun e => e.1 == k) = none := by
      cases h2 : (c.entries.filter (liveAt now)).find? (fun e => e.1 == k) with
      | none => rfl
      | some e => rw [h2] at hfind; simp at hfind
    have hd : (c.entries.filter (liveAt now) ++ [(k, v, now + c.ttl)]).length - c.maxsize ≤
        (c.entries.filter (liveAt now)).length := by
      rw [List.length_append]
      simp only [List.length_singleton]
      omega
    rw [List.drop_append_of_le_length hd, List.find?_append]
    have h1 : ((c.entries.filter (liveAt now)).drop
        ((c.entries.filter (liveAt now) ++ [(k, v, now + c.ttl)]).length - c.maxsize)).find?
          (fun e => e.1 == k) = none := by
      rw [List.find?_eq_none] at hnone ⊢
      exact fun x hx => hnone x (List.drop_subset _ _ hx)
    rw [h1]
    simp [List.find?, hlive]

/-! ## Capacity and eviction (request_cache, line 39)

The capacity scenario of the spec: distinct fresh keys inserted one after the
other at time zero (all within the ttl window, so expiry plays no part). -/

/-- put never changes the configured capacity and ttl. -/
theorem insertAll_config (v : K → V) :
    ∀ (ks : List K) (c : TTLCache K V),
      (insertAll c v ks).maxsize = c.maxsize ∧ (insertAll c v ks).ttl = c.ttl := by
  intro ks
  induction ks with
  | nil => intro c; exact ⟨rfl, rfl⟩
  | cons k rest ih =>
    intro c
    have h := ih (c.put k (v k) 0)
    exact ⟨h.1, h.2⟩

/-- Shape of the store after inserting distinct fresh keys at time zero into
an empty cache: the bindings in insertion order, with the oldest-inserted
ones beyond capacity evicted from the front. -/
theorem insertAll_entries (m t : Nat) (hm : 1 ≤ m) (ht : 1 ≤ t) (v : K → V)
    (ks : List K) (hnd : ks.Nodup) :
    (insertAll (emptyCache m t) v ks).entries =
      (ks.map (fun k => (k, v k, t))).drop (ks.length - m) := by
  induction ks using List.reverseRecOn with
  | nil => simp [insertAll, emptyCache]
  | append_singleton ks k ih =>
    have hnd0 : ks.Nodup :=
      List.Nodup.sublist (List.sublist_append_left ks [k]) hnd
    have hknotin : k ∉ ks := by
      rw [List.nodup_append] at hnd
      intro hk
      exact hnd.2.2 hk (List.mem_singleton_self k)
    have hih := ih hnd0
    have hconf := insertAll_config v ks (emptyCache (K := K) (V := V) m t)
    have hstep : insertAll (emptyCache m t) v (ks ++ [k]) =
        (insertAll (emptyCache m t) v ks).put k (v k) 0 := by
      unfold insertAll
      rw [List.foldl_append]
      rfl
    set C := insertAll (emptyCache (K := K) (V := V) m t) v ks with hC
    have hmax : C.maxsize = m := hconf.1
    have httl : C.ttl = t := hconf.2
    set L := ks.map (fun k => (k, v k, t)) with hL
    have hLlen : L.length = ks.length := List.length_map _ _
    have hmem : ∀ e ∈ C.entries, ∃ k2, k2 ∈ ks ∧ e = (k2, v k2, t) := by
      intro e he
      rw [hih] at he
      have he2 : e ∈ L := List.drop_subset _ _ he
      rw [hL] at he2
      obtain ⟨k2, hk2, hek2⟩ := List.mem_map.mp he2
      exact ⟨k2, hk2, hek2.symm⟩
    have hfilter : C.entries.filter (liveAt 0) = C.entries := by
      rw [List.filter_eq_self]
      intro e he
      obtain ⟨k2, _, hek2⟩ := hmem e he
      rw [hek2]
      unfold liveAt
      simp only [decide_eq_true_eq]
      omega
    have hfind : C.entries.find? (fun e => e.1 == k) = none := by
      rw [List.find?_eq_none]
      intro e he
      obtain ⟨k2, hk2, hek2⟩ := hmem e he
      rw [hek2]
      simp only [beq_eq_false_iff_ne, ne_eq, Bool.not_eq_true]
      intro hkk
      exact hknotin (hkk ▸ hk2)
    have hput : (C.put k (v k) 0).entries =
        (C.entries ++ [(k, v k, t)]).drop
          ((C.entries ++ [(k, v k, t)]).length - m) := by
      simp only [put, expire, hfilter, hfind, Option.isSome_none, Bool.false_eq_true,
        if_false, httl, hmax, Nat.zero_add]
    rw [hstep, hput, hih]
    have hdlen : (L.drop (ks.length - m)).length = L.length - (ks.length - m) :=
      List.length_drop _ _
    have hd1 : ((L.drop (ks.length - m)) ++ [(k, v k, t)]).length - m ≤
        (L.drop (ks.length - m)).length := by
      rw [List.length_append, List.length_singleton, hdlen, hLlen]
      omega
    rw [List.drop_append_of_le_length hd1, List.drop_drop]
    have harith : (ks.length - m) +
        (((L.drop (ks.length - m)) ++ [(k, v k, t)]).length - m) = (ks.length + 1) - m := by
      rw [List.length_append, List.length_singleton, hdlen, hLlen]
      omega
    rw [harith]
    have hR : (ks ++ [k]).map (fun k => (k, v k, t)) = L ++ [(k, v k, t)] := by
      rw [List.map_append]
      rfl
    rw [hR, List.length_append, List.length_singleton,
      List.drop_append_of_le_length (by rw [hLlen]; omega : ks.length + 1 - m ≤ L.length)]

/-- First match over distinct keyed bindings. -/
theorem find?_keyed (t : Nat) (v : K → V) (k : K) :
    ∀ (l : List K), k ∈ l →
      (l.map (fun k2 => (k2, v k2, t))).find? (fun e => e.1 == k) = some (k, v k, t) := by
  intro l
  induction l with
  | nil => intro h; exact absurd h (List.not_mem_nil k)
  | cons a rest ih =>
    intro hmem
    by_cases hak : (a == k) = true
    · have hak2 : a = k := eq_of_beq hak
      subst hak2
      exact List.find?_cons_of_pos _ (by simp)
    · have hak2 : (a == k) = false := by
        cases h2 : (a == k) with
        | true => exact absurd h2 hak
        | false => rfl
      rw [List.map_cons, List.find?_cons_of_neg _ (by simp [hak2])]
      apply ih
      rcases List.mem_cons.mp hmem with h | h
      · exact absurd (h ▸ hak2) (by simp)
      · exact h

/-- No match over bindings keyed away from k. -/
theorem find?_keyed_none (t : Nat) (v : K → V) (k : K) (l : List K) (hk : k ∉ l) :
    (l.map (fun k2 => (k2, v k2, t))).find? (fun e => e.1 == k) = none := by
  rw [List.find?_eq_none]
  intro e he
  obtain ⟨k2, hk2, hek2⟩ := List.mem_map.mp he
  rw [← hek2]
  simp only [beq_eq_false_iff_ne, ne_eq, Bool.not_eq_true]
  intro hkk
  exact hk (hkk ▸ hk2)

/-- C9: the number of live entries never exceeds the configured maximum;
inserting max plus one distinct keys leaves exactly max keys retrievable,
the evicted key being the oldest-inserted first one, which is retrievable
at every point before the overflowing insertion and absent afterward. -/
theorem cache_capacity_eviction (m t : Nat) (hm : 1 ≤ m) (ht : 1 ≤ t)
    (v : K → V) (k0 : K) (ks : List K)
    (hnd : (k0 :: ks).Nodup) (hlen : ks.length = m) :
    (∀ j, j ≤ m → 1 ≤ j →
      (insertAll (emptyCache m t) v ((k0 :: ks).take j)).lookup k0 0 = some (v k0)) ∧
    (insertAll (emptyCache m t) v (k0 :: ks)).lookup k0 0 = none ∧
    (∀ k ∈ ks, (insertAll (emptyCache m t) v (k0 :: ks)).lookup k 0 = some (v k)) ∧
    (insertAll (emptyCache m t) v (k0 :: ks)).size = m ∧
    (∀ j, (insertAll (emptyCache m t) v ((k0 :: ks).take j)).size ≤ m) := by
  have hk0notin : k0 ∉ ks := (List.nodup_cons.mp hnd).1
  have hlive : ∀ (k2 : K), liveAt 0 (k2, v k2, t) = true := by
    intro k2
    unfold liveAt
    simp only [decide_eq_true_eq]
    omega
  have hfull := insertAll_entries m t hm ht v (k0 :: ks) hnd
  have hfulldrop : ((k0 :: ks).map (fun k => (k, v k, t))).drop
      ((k0 :: ks).length - m) = ks.map (fun k => (k, v k, t)) := by
    rw [List.length_cons, hlen]
    simp
  rw [hfulldrop] at hfull
  refine ⟨?_, ?_, ?_, ?_, ?_⟩
  · intro j hj h1j
    have hndj : ((k0 :: ks).take j).Nodup :=
      List.Nodup.sublist (List.take_sublist j (k0 :: ks)) hnd
    have hj2 : ((k0 :: ks).take j).length ≤ m := by
      rw [List.length_take]
      omega
    have hent := insertAll_entries m t hm ht v ((k0 :: ks).take j) hndj
    rw [Nat.sub_eq_zero_of_le hj2, List.drop_zero] at hent
    have hk0mem : k0 ∈ (k0 :: ks).take j := by
      cases j with
      | zero => omega
      | succ j2 => exact List.mem_cons_self k0 _
    simp only [lookup, findEntry, hent, find?_keyed t v k0 _ hk0mem, hlive k0,
      if_true]
  · simp only [lookup, findEntry, hfull, find?_keyed_none t v k0 ks hk0notin]
  · intro k hk
    simp only [lookup, findEntry, hfull, find?_keyed t v k ks hk, hlive k, if_true]
  · unfold size
    rw [hfull, List.length_map, hlen]
  · intro j
    have hndj : ((k0 :: ks).take j).Nodup :=
      List.Nodup.sublist (List.take_sublist j (k0 :: ks)) hnd
    have hent := insertAll_entries m t hm ht v ((k0 :: ks).take j) hndj
    unfold size
    rw [hent, List.length_drop, List.length_map]
    omega

/-- Witness for C9 at capacity two: keys 0, 1, 2 inserted in order; 0 is
retrievable before the overflowing insertion, absent afterward, 1 and 2
retrievable, and exactly two entries remain. -/
theorem cache_capacity_eviction_witness :
    (insertAll (emptyCache 2 1) (fun k => k * 10) ([0, 1] : List Nat)).lookup 0 0 =
      some 0 ∧
    (insertAll (emptyCache 2 1) (fun k => k * 10) ([0, 1, 2] : List Nat)).lookup 0 0 =
      none ∧
    (insertAll (emptyCache 2 1) (fun k => k * 10) ([0, 1, 2] : List Nat)).lookup 1 0 =
      some 10 ∧
    (insertAll (emptyCache 2 1) (fun k => k * 10) ([0, 1, 2] : List Nat)).size = 2 := by
  have h := cache_capacity_eviction 2 1 (by decide) (by decide) (fun k => k * 10)
    0 [1, 2] (by decide) (by decide)
  exact ⟨h.1 2 (by decide) (by decide), h.2.1, h.2.2.1 1 (by decide), h.2.2.2.1⟩

end TTLCache

theorem ifBoolTrue {p : Bool} {x y : Bool} (h : p = true) :
    (if p = true then x else y) = x := by
  rw [h]
  simp

theorem ifBoolFalse {p : Bool} {x y : Bool} (h : p = false) :
    (if p = true then x else y) = y := by
  rw [h]
  simp

theorem charEqOfToNatEq {a b : Char} (h : a.toNat = b.toNat) : a = b :=
  Char.ext (UInt32.toNat.inj h)

theorem charListLe_total : ∀ (as bs : List Char),
    charListLe as bs = true ∨ charListLe bs as = true := by
  intro as
  induction as with
  | nil => intro bs; left; rfl
  | cons a as2 ih =>
    intro bs
    cases bs with
    | nil => right; rfl
    | cons b bs2 =>
      rcases Nat.lt_trichotomy a.toNat b.toNat with h | h | h
      · left
        unfold charListLe
        rw [if_pos h]
      · have he : a = b := charEqOfToNatEq h
        subst he
        have hno : ¬ a.toNat < a.toNat := by omega
        rcases ih bs2 with h2 | h2
        · left
          unfold charListLe
          rw [if_neg hno, if_neg hno]
          exact h2
        · right
          unfold charListLe
          rw [if_neg hno, if_neg hno]
          exact h2
      · right
        unfold charListLe
        rw [if_pos h]

theorem charListLe_antisymm : ∀ (as bs : List Char),
    charListLe as bs = true → charListLe bs as = true → as = bs := by
  intro as
  induction as with
  | nil =>
    intro bs _ hba
    cases bs with
    | nil => rfl
    | cons b bs2 => exact absurd hba (by simp [charListLe])
  | cons a as2 ih =>
    intro bs hab hba
    cases bs with
    | nil => exact absurd hab (by simp [charListLe])
    | cons b bs2 =>
      rcases Nat.lt_trichotomy a.toNat b.toNat with h | h | h
      · have hno : ¬ b.toNat < a.toNat := by omega
        unfold charListLe at hba
        rw [if_neg hno, if_pos h] at hba
        exact absurd hba (by simp)
      · have he : a = b := charEqOfToNatEq h
        subst he
        have hno : ¬ a.toNat < a.toNat := by omega
        unfold charListLe at hab hba
        rw [if_neg hno, if_neg hno] at hab hba
        rw [ih bs2 hab hba]
      · have hno : ¬ a.toNat < b.toNat := by omega
        unfold charListLe at hab
        rw [if_neg hno, if_pos h] at hab
        exact absurd hab (by simp)

theorem charListLe_trans : ∀ (as bs cs : List Char),
    charListLe as bs = true → charListLe bs cs = true → charListLe as cs = true := by
  intro as
  induction as with
  | nil => intro bs cs _ _; rfl
  | cons a as2 ih =>
    intro bs cs hab hbc
    cases bs with
    | nil => exact absurd hab (by simp [charListLe])
    | cons b bs2 =>
      cases cs with
      | nil => exact absurd hbc (by simp [charListLe])
      | cons c cs2 =>
        rcases Nat.lt_trichotomy a.toNat b.toNat with h1 | h1 | h1
        · rcases Nat.lt_trichotomy b.toNat c.toNat with h2 | h2 | h2
          · unfold charListLe
            rw [if_pos (by omega : a.toNat < c.toNat)]
          · have he : b = c := charEqOfToNatEq h2
            subst he
            unfold charListLe
            rw [if_pos h1]
          · have hno : ¬ b.toNat < c.toNat := by omega
            unfold charListLe at hbc
            rw [if_neg hno, if_pos h2] at hbc
            exact absurd hbc (by simp)
        · have he : a = b := charEqOfToNatEq h1
          subst he
          rcases Nat.lt_trichotomy a.toNat c.toNat with h2 | h2 | h2
          · unfold charListLe
            rw [if_pos h2]
          · have he2 : a = c := charEqOfToNatEq h2
            subst he2
            have hno : ¬ a.toNat < a.toNat := by omega
            unfold charListLe at hab hbc ⊢
            rw [if_neg hno, if_neg hno] at hab hbc ⊢
            exact ih bs2 cs2 hab hbc
          · have hno : ¬ a.toNat < c.toNat := by omega
            unfold charListLe at hbc
            rw [if_neg hno, if_pos h2] at hbc
            exact absurd hbc (by simp)
        · have hno : ¬ a.toNat < b.toNat := by omega
          unfold charListLe at hab
          rw [if_neg hno, if_pos h1] at hab
          exact absurd hab (by simp)

/-- Strings with equal character data are equal. -/
theorem stringDataEq {a b : String} (h : a.data = b.data) : a = b := by
  cases a
  cases b
  exact congrArg String.mk h

theorem beqStringFalseSymm {a b : String} (h : (a == b) = false) : (b == a) = false := by
  cases h2 : (b == a) with
  | false => rfl
  | true =>
    rw [eq_of_beq h2, beq_self_eq_true] at h
    exact absurd h (by simp)

theorem pairLe_total (a b : String × Int) : pairLe a b ∨ pairLe b a := by
  unfold pairLe
  cases hn : (a.1 == b.1) with
  | true =>
    have he : a.1 = b.1 := eq_of_beq hn
    have hn2 : (b.1 == a.1) = true := by rw [he, beq_self_eq_true]
    rw [ifBoolTrue rfl, ifBoolTrue hn2]
    rcases le_total a.2 b.2 with h | h
    · exact Or.inl (decide_eq_true h)
    · exact Or.inr (decide_eq_true h)
  | false =>
    rw [ifBoolFalse rfl, ifBoolFalse (beqStringFalseSymm hn)]
    exact charListLe_total a.1.data b.1.data

theorem pairLe_trans (a b c : String × Int) (hab : pairLe a b) (hbc : pairLe b c) :
    pairLe a c := by
  unfold pairLe at hab hbc ⊢
  cases hn1 : (a.1 == b.1) with
  | true =>
    have he1 : a.1 = b.1 := eq_of_beq hn1
    rw [ifBoolTrue hn1] at hab
    cases hn2 : (b.1 == c.1) with
    | true =>
      have he2 : b.1 = c.1 := eq_of_beq hn2
      rw [ifBoolTrue hn2] at hbc
      have hn3 : (a.1 == c.1) = true := by rw [he1, he2, beq_self_eq_true]
      rw [ifBoolTrue hn3]
      exact decide_eq_true (le_trans (of_decide_eq_true hab) (of_decide_eq_true hbc))
    | false =>
      rw [ifBoolFalse hn2] at hbc
      have hn3 : (a.1 == c.1) = false := by
        cases h3 : (a.1 == c.1) with
        | false => rfl
        | true =>
          have he3 : a.1 = c.1 := eq_of_beq h3
          rw [← he1, ← he3, beq_self_eq_true] at hn2
          exact absurd hn2 (by simp)
      rw [ifBoolFalse hn3, he1]
      exact hbc
  | false =>
    rw [ifBoolFalse hn1] at hab
    cases hn2 : (b.1 == c.1) with
    | true =>
      have he2 : b.1 = c.1 := eq_of_beq hn2
      have hn3 : (a.1 == c.1) = false := by
        cases h3 : (a.1 == c.1) with
        | false => rfl
        | true =>
          have he3 : a.1 = c.1 := eq_of_beq h3
          rw [he3, ← he2, beq_self_eq_true] at hn1
          exact absurd hn1 (by simp)
      rw [ifBoolFalse hn3, ← he2]
      exact hab
    | false =>
      rw [ifBoolFalse hn2] at hbc
      cases h3 : (a.1 == c.1) with
      | true =>
        have he3 : a.1 = c.1 := eq_of_beq h3
        rw [he3] at hab
        have hdq : b.1.data = c.1.data := charListLe_antisymm b.1.data c.1.data hbc hab
        have hcontra : (b.1 == c.1) = true := by rw [stringDataEq hdq, beq_self_eq_true]
        rw [hcontra] at hn2
        exact absurd hn2 (by simp)
      | false =>
        rw [ifBoolFalse rfl]
        exact charListLe_trans a.1.data b.1.data c.1.data hab hbc

theorem pairLe_antisymm (a b : String × Int) (hab : pairLe a b) (hba : pairLe b a) :
    a = b := by
  unfold pairLe at hab hba
  cases hn : (a.1 == b.1) with
  | true =>
    have he : a.1 = b.1 := eq_of_beq hn
    have hn2 : (b.1 == a.1) = true := by rw [he, beq_self_eq_true]
    rw [ifBoolTrue hn] at hab
    rw [ifBoolTrue hn2] at hba
    exact Prod.ext he (le_antisymm (of_decide_eq_true hab) (of_decide_eq_true hba))
  | false =>
    rw [ifBoolFalse hn] at hab
    rw [ifBoolFalse (beqStringFalseSymm hn)] at hba
    have hd := stringDataEq (charListLe_antisymm a.1.data b.1.data hab hba)
    rw [hd, beq_self_eq_true] at hn
    exact absurd hn (by simp)

/-- Two parameter lists that are permutations of one another give the same
key: sorting the items normalizes away the construction order. -/
theorem get_cache_key_perm (url : String) (p q : List (String × Int))
    (h : p.Perm q) : get_cache_key url p = get_cache_key url q := by
  haveI : IsTotal (String × Int) pairLe := ⟨pairLe_total⟩
  haveI : IsTrans (String × Int) pairLe := ⟨pairLe_trans⟩
  haveI : IsAntisymm (String × Int) pairLe := ⟨pairLe_antisymm⟩
  unfold get_cache_key sortedParams
  have hperm : (p.insertionSort pairLe).Perm (q.insertionSort pairLe) :=
    (List.perm_insertionSort pairLe p).trans
      (h.trans (List.perm_insertionSort pairLe q).symm)
  have hsorted : p.insertionSort pairLe = q.insertionSort pairLe :=
    List.eq_of_perm_of_sorted hperm
      (List.sorted_insertionSort pairLe p) (List.sorted_insertionSort pairLe q)
  rw [hsorted]

/-- C4: for every path and every two parameter dicts holding the same set of
name-value pairs (regardless of the order in which the parameters were
supplied; a dict never repeats a name), _get_cache_key computes the same
RequestKey string, so both requests address the same cache entry. -/
theorem cache_key_normalization (url : String) (p q : List (String × Int))
    (hp : (p.map Prod.fst).Nodup) (hq : (q.map Prod.fst).Nodup)
    (hset : ∀ x, x ∈ p ↔ x ∈ q) :
    get_cache_key url p = get_cache_key url q ∧
      ∀ (V : Type) (c : TTLCache String V) (now : Nat),
        c.lookup (get_cache_key url p) now = c.lookup (get_cache_key url q) now := by
  have hperm : p.Perm q :=
    (List.perm_ext_iff_of_nodup (hp.of_map Prod.fst) (hq.of_map Prod.fst)).mpr hset
  have hkey := get_cache_key_perm url p q hperm
  exact ⟨hkey, fun V c now => by rw [hkey]⟩

/-- Witness for C4: the two orderings of the documentation example produce
the identical key string. -/
theorem cache_key_normalization_witness :
    get_cache_key "/p" [("a", 1), ("b", 2)] = get_cache_key "/p" [("b", 2), ("a", 1)] :=
  (cache_key_normalization "/p" [("a", 1), ("b", 2)] [("b", 2), ("a", 1)]
    (by decide) (by decide)
    (by intro x; simp only [List.mem_cons, List.not_mem_nil, or_false]; tauto)).1

/-- C2: the fetch algorithm. On a valid cache hit the cached payload is
returned with no network call and no cache change; otherwise the per-key
lock is taken, the cache re-checked, and on the re-check miss the network
GET is performed; on success the payload is stored under the computed key
(and is then retrievable there) and returned. -/
theorem make_request_algorithm {V : Type} (c : TTLCache String V) (url : String)
    (params : List (String × Int)) (now : Nat) (net : Except NetErr V)
    (hm : 1 ≤ c.maxsize) (ht : 1 ≤ c.ttl) (hsize : c.size ≤ c.maxsize) :
    (∀ v, c.lookup (get_cache_key url params) now = some v →
      make_request c url params now net = ⟨.ok v, c, false, []⟩) ∧
    (c.lookup (get_cache_key url params) now = none →
      (make_request c url params now net).networkCalled = true ∧
      ∀ d, net = .ok d →
        make_request c url params now net =
          ⟨.ok d, c.put (get_cache_key url params) d now, true, []⟩ ∧
        (make_request c url params now net).cache.lookup
          (get_cache_key url params) now = some d) := by
  constructor
  · intro v hv
    unfold make_request
    rw [hv]
  · intro hmiss
    have hbody : ∀ d, net = Except.ok d →
        make_request c url params now net =
          ⟨.ok d, c.put (get_cache_key url params) d now, true, []⟩ := by
      intro d hd
      unfold make_request
      rw [hmiss, hd]
    constructor
    · unfold make_request
      rw [hmiss]
      cases net <;> rfl
    · intro d hd
      refine ⟨hbody d hd, ?_⟩
      rw [hbody d hd]
      exact TTLCache.lookup_put_self c (get_cache_key url params) d now hm ht hsize

/-- Witness for C2: a concrete hit returns the cached 42 without touching
the network, and a concrete miss issues the network call. -/
theorem make_request_algorithm_witness :
    make_request ⟨100, 60, [(get_cache_key "/u" [], 42, 60)]⟩ "/u" [] 0 (.ok 7) =
      ⟨.ok 42, ⟨100, 60, [(get_cache_key "/u" [], 42, 60)]⟩, false, []⟩ ∧
    (make_request (TTLCache.emptyCache 100 60) "/u" [] 0 (.ok (7 : Nat))).networkCalled
      = true := by
  constructor
  · exact (make_request_algorithm ⟨100, 60, [(get_cache_key "/u" [], 42, 60)]⟩ "/u" [] 0
      (.ok 7) (by decide) (by decide) (by decide)).1 42 rfl
  · exact ((make_request_algorithm (TTLCache.emptyCache 100 60) "/u" [] 0 (.ok (7 : Nat))
      (by decide) (by decide) (by decide)).2 rfl).1

/-- C5: a failed fetch raises a 500, leaves the cache state exactly as it
was (failures are never cached), and any later call for the same key issues
a fresh network attempt instead of replaying a cached failure. -/
theorem failed_fetch_not_cached {V : Type} (c : TTLCache String V) (url : String)
    (params : List (String × Int)) (now : Nat) (e : NetErr)
    (hmiss : c.lookup (get_cache_key url params) now = none) :
    make_request c url params now (.error e) =
      ⟨.error ⟨500, netErrMsg e⟩, c, true, [errorMsg url e]⟩ ∧
    ∀ (now2 : Nat) (net2 : Except NetErr V), now ≤ now2 →
      (make_request c url params now2 net2).networkCalled = true := by
  constructor
  · unfold make_request
    rw [hmiss]
  · intro now2 net2 hle
    have hmiss2 : c.lookup (get_cache_key url params) now2 = none :=
      TTLCache.lookup_none_mono c _ now now2 hle hmiss
    unfold make_request
    rw [hmiss2]
    cases net2 <;> rfl

/-- Witness for C5: a concrete timeout against an empty cache raises a 500
and the retry issues the network call again. -/
theorem failed_fetch_not_cached_witness :
    make_request (TTLCache.emptyCache 100 60) "/u" [] 0 (.error (.timeout "timed out")) =
      ⟨.error ⟨500, "timed out"⟩, TTLCache.emptyCache (V := Nat) 100 60, true,
        [errorMsg "/u" (.timeout "timed out")]⟩ ∧
    (make_request (TTLCache.emptyCache (V := Nat) 100 60) "/u" [] 1
      (.error (.timeout "timed out"))).networkCalled = true := by
  have h := failed_fetch_not_cached (TTLCache.emptyCache (V := Nat) 100 60) "/u" [] 0
    (.timeout "timed out") rfl
  exact ⟨h.1, h.2 1 (.error (.timeout "timed out")) (by decide)⟩

/-- C8: every network failure mode (connection failure, timeout, non-2xx)
surfaces as the one upstream-unavailable kind, a 500 whose logged diagnostic
names the offending path, and that kind is distinct from the 404 not-found
kind raised during name resolution. -/
theorem upstream_unavailable_kind {V : Type} (c : TTLCache String V) (url : String)
    (params : List (String × Int)) (now : Nat) (e : NetErr)
    (hmiss : c.lookup (get_cache_key url params) now = none) :
    (make_request c url params now (.error e)).result = .error ⟨500, netErrMsg e⟩ ∧
    (make_request c url params now (.error e)).log = [errorMsg url e] ∧
    (∃ pre post, errorMsg url e = pre ++ url ++ post) ∧
    ∀ name, (⟨500, netErrMsg e⟩ : HTTPEx) ≠ ⟨404, notFoundDetail name⟩ := by
  have hrun : make_request c url params now (.error e) =
      ⟨.error ⟨500, netErrMsg e⟩, c, true, [errorMsg url e]⟩ := by
    unfold make_request
    rw [hmiss]
  refine ⟨by rw [hrun], by rw [hrun], ⟨"Error making request to ", ": " ++ netErrMsg e, ?_⟩, ?_⟩
  · unfold errorMsg
    rw [String.append_assoc]
  · intro name h
    have hst : (500 : Nat) = 404 := congrArg HTTPEx.status h
    exact absurd hst (by decide)

/-- Witness for C8: a concrete non-2xx failure at an empty cache. -/
theorem upstream_unavailable_kind_witness :
    (make_request (TTLCache.emptyCache (V := Nat) 100 60) "/api/v1/comments/" [] 0
      (.error (.non2xx 503 "server error"))).result = .error ⟨500, "server error"⟩ ∧
    (∃ pre post,
      errorMsg "/api/v1/comments/" (.non2xx 503 "server error") =
        pre ++ "/api/v1/comments/" ++ post) := by
  have h := upstream_unavailable_kind (TTLCache.emptyCache (V := Nat) 100 60)
    "/api/v1/comments/" [] 0 (.non2xx 503 "server error") rfl
  exact ⟨h.1, h.2.2.1⟩

/-- On a listing whose entries all carry titles, the scan is exactly the
first-match search. -/
theorem findSubfeddit_eq_find? (name : String) :
    ∀ (l : List SubEntry), (∀ s ∈ l, s.title.isSome) →
      findSubfeddit name l = .ok (l.find? (titleMatches name)) := by
  intro l
  induction l with
  | nil => intro _; rfl
  | cons s rest ih =>
    intro hw
    obtain ⟨t, hts⟩ := Option.isSome_iff_exists.mp (hw s (List.mem_cons_self s rest))
    simp only [findSubfeddit, hts]
    by_cases hmatch : (strLower t == strLower name) = true
    · rw [if_pos hmatch, List.find?_cons_of_pos _ (by simp [titleMatches, hts, hmatch])]
    · have hmatch2 : (strLower t == strLower name) = false := by
        cases h2 : (strLower t == strLower name) with
        | true => exact absurd h2 hmatch
        | false => rfl
      rw [if_neg hmatch, List.find?_cons_of_neg _ (by simp [titleMatches, hts, hmatch2])]
      exact ih (fun x hx => hw x (List.mem_cons_of_mem s hx))

/-- Evaluation of get_subfeddit_by_name on a well-formed listing. -/
theorem get_subfeddit_by_name_run {D : Type}
    (fetchListing : List (String × Int) → Except HTTPEx ListingPayload)
    (fetchDetail : List (String × Int) → Except HTTPEx D)
    (name : String) (l : List SubEntry)
    (hl : fetchListing [("limit", 100)] = .ok ⟨some l⟩)
    (hw : ∀ s ∈ l, s.title.isSome) :
    get_subfeddit_by_name fetchListing fetchDetail name =
      match l.find? (titleMatches name) with
      | some s =>
        match s.id with
        | none => .error ⟨500, "KeyError: \x27id\x27"⟩
        | some i => fetchDetail [("subfeddit_id", i)]
      | none => .error ⟨404, notFoundDetail name⟩ := by
  simp only [get_subfeddit_by_name, hl, Option.getD_some]
  rw [findSubfeddit_eq_find? name l hw]
  cases l.find? (titleMatches name) with
  | none => rfl
  | some s => cases s.id <;> rfl

/-- C6: resolution searches the fetched listing case-insensitively; a match
with id I yields the detail fetch for I, and no match yields the 404
not-found kind. -/
theorem resolve_subfeddit_case_insensitive {D : Type}
    (fetchListing : List (String × Int) → Except HTTPEx ListingPayload)
    (fetchDetail : List (String × Int) → Except HTTPEx D)
    (name : String) (l : List SubEntry)
    (hl : fetchListing [("limit", 100)] = .ok ⟨some l⟩)
    (hw : ∀ s ∈ l, s.title.isSome) :
    (∀ s, l.find? (titleMatches name) = some s → ∀ i, s.id = some i →
      get_subfeddit_by_name fetchListing fetchDetail name =
        fetchDetail [("subfeddit_id", i)]) ∧
    (l.find? (titleMatches name) = none →
      get_subfeddit_by_name fetchListing fetchDetail name =
        .error ⟨404, notFoundDetail name⟩) := by
  have hrun := get_subfeddit_by_name_run fetchListing fetchDetail name l hl hw
  constructor
  · intro s hs i hi
    simp only [hrun, hs, hi]
  · intro hnone
    simp only [hrun, hnone]

/-- Witness for C6: resolving cooking against a listing holding the entry
with id 1 and title Cooking yields the detail fetch for id 1; resolving
nonexistent yields the 404. -/
theorem resolve_subfeddit_case_insensitive_witness :
    get_subfeddit_by_name (fun _ => .ok ⟨some [⟨some 1, some "Cooking"⟩]⟩)
      (fun ps => .ok ps) "cooking" = .ok [("subfeddit_id", 1)] ∧
    get_subfeddit_by_name (fun _ => .ok ⟨some [⟨some 1, some "Cooking"⟩]⟩)
      (fun ps => .ok ps) "nonexistent" = .error ⟨404, notFoundDetail "nonexistent"⟩ := by
  constructor
  · exact (resolve_subfeddit_case_insensitive
      (fun _ => .ok ⟨some [⟨some 1, some "Cooking"⟩]⟩) (fun ps => .ok ps)
      "cooking" [⟨some 1, some "Cooking"⟩] rfl (by decide)).1
      ⟨some 1, some "Cooking"⟩ (by decide) 1 rfl
  · exact (resolve_subfeddit_case_insensitive
      (fun _ => .ok ⟨some [⟨some 1, some "Cooking"⟩]⟩) (fun ps => .ok ps)
      "nonexistent" [⟨some 1, some "Cooking"⟩] rfl (by decide)).2 (by decide)

/-- Counterexample to C7 as stated: a listing payload missing the
subfeddits field is not surfaced as a malformed-payload error; the code
silently substitutes the empty list (line 125), so resolution returns the
ordinary 404 not-found kind, indistinguishable from an empty listing. -/
theorem missing_subfeddits_field_defaults :
    get_subfeddit_by_name (D := Nat) (fun _ => .ok ⟨none⟩) (fun _ => .ok 0) "cooking" =
      .error ⟨404, notFoundDetail "cooking"⟩ ∧
    get_subfeddit_by_name (D := Nat) (fun _ => .ok ⟨none⟩) (fun _ => .ok 0) "cooking" =
      get_subfeddit_by_name (D := Nat) (fun _ => .ok ⟨some []⟩) (fun _ => .ok 0)
        "cooking" :=
  ⟨rfl, rfl⟩

/-- C7 amended: a listing payload without the subfeddits field is silently
defaulted to the empty listing and resolution fails with the 404 not-found
kind; a listing entry missing its title field does surface as an error (a
500 from the KeyError caught by the generic handler), not a default. -/
theorem malformed_payload_behavior {D : Type}
    (fetchDetail : List (String × Int) → Except HTTPEx D) (name : String) :
    get_subfeddit_by_name (fun _ => .ok ⟨none⟩) fetchDetail name =
      .error ⟨404, notFoundDetail name⟩ ∧
    get_subfeddit_by_name (fun _ => .ok ⟨some [⟨none, none⟩]⟩) fetchDetail name =
      .error ⟨500, "KeyError: \x27title\x27"⟩ :=
  ⟨rfl, rfl⟩

/-- C10: the listing fetch of line 124 uses a fixed limit of 100, so a
subfeddit that exists upstream but sits outside the first 100 listing
entries (and whose title matches none of those 100) cannot be resolved:
the search fails with the 404 not-found kind. -/
theorem resolve_limited_to_first_100 {D : Type}
    (fetchDetail : List (String × Int) → Except HTTPEx D)
    (full : List SubEntry) (name : String)
    (hw : ∀ s ∈ full.take 100, s.title.isSome)
    (hnomatch : (full.take 100).find? (titleMatches name) = none)
    (_hexists : ∃ s ∈ full, titleMatches name s) :
    get_subfeddit_by_name (upstreamListing full) fetchDetail name =
      .error ⟨404, notFoundDetail name⟩ := by
  have hl : upstreamListing full [("limit", 100)] = .ok ⟨some (full.take 100)⟩ := rfl
  rw [get_subfeddit_by_name_run (upstreamListing full) fetchDetail name
    (full.take 100) hl hw, hnomatch]

/-- Witness for C10: a listing of 101 entries whose 101st is the only one
titled target; resolving target fails with the 404. -/
theorem resolve_limited_to_first_100_witness :
    get_subfeddit_by_name
      (upstreamListing ((List.range 100).map
          (fun i => ⟨some i, some ("sub" ++ toString i)⟩) ++ [⟨some 100, some "target"⟩]))
      (fun ps => .ok ps) "target" = .error ⟨404, notFoundDetail "target"⟩ := by
  exact resolve_limited_to_first_100 (fun ps => .ok ps)
    ((List.range 100).map (fun i => ⟨some i, some ("sub" ++ toString i)⟩) ++
      [⟨some 100, some "target"⟩])
    "target" (by decide) (by decide) (by decide)

/-- C3 fails on the code: after a comments request, the cached payload for
the key is NOT the raw payload the upstream fetch stored. The fetch itself
stores the raw payload (first conjunct), but the handler then mutates the
shared dict, so once the request completes the cache holds the
sentiment-augmented, response-keyed payload (remaining conjuncts). -/
theorem cached_comments_payload_mutated :
    (make_request (TTLCache.emptyCache 100 60) "/api/v1/comments/" (commentsParams 1 2 0)
        0 (.ok rawCommentsDemo)).cache.lookup
      (get_cache_key "/api/v1/comments/" (commentsParams 1 2 0)) 0 =
        some rawCommentsDemo ∧
    (get_subfeddit_comments_core (fun _ => 1) (TTLCache.emptyCache 100 60) "test" 1 2 0 0
        (.ok rawCommentsDemo) none (some "desc") none).cache.lookup
      (get_cache_key "/api/v1/comments/" (commentsParams 1 2 0)) 0 =
        some ⟨1, [⟨1, "u1", "great", 100, some ⟨1, "positive"⟩⟩],
          some "test", none, some "desc", none⟩ ∧
    (get_subfeddit_comments_core (fun _ => 1) (TTLCache.emptyCache 100 60) "test" 1 2 0 0
        (.ok rawCommentsDemo) none (some "desc") none).cache.lookup
      (get_cache_key "/api/v1/comments/" (commentsParams 1 2 0)) 0 ≠
        some rawCommentsDemo := by
  refine ⟨by decide, by decide, by decide⟩

theorem didNet_update_eq {n : Nat} {V : Type} (f : Fin n → CallerState V)
    (i : Fin n) (st : CallerState V) (hst : st.didNet = (f i).didNet) :
    ∀ j, ((Function.update f i st) j).didNet = (f j).didNet := by
  intro j
  by_cases hji : j = i
  · subst hji
    rw [Function.update_same, hst]
  · rw [Function.update_noteq hji]

theorem existsUnique_didNet_congr {n : Nat} {V : Type}
    {f g : Fin n → CallerState V} (h : ∀ j, (f j).didNet = (g j).didNet)
    (hex : ∃! j, (f j).didNet = true) : ∃! j, (g j).didNet = true := by
  obtain ⟨j, hj, hu⟩ := hex
  refine ⟨j, ?_, ?_⟩
  · show (g j).didNet = true
    rw [← h j]
    exact hj
  · intro y hy
    exact hu y (show (f y).didNet = true by rw [h y]; exact hy)

theorem dedupInv_init (n : Nat) (V : Type) (p : V) :
    DedupInv n V p (dedupInit n V) := by
  refine ⟨?_, ?_, ?_, ?_, ?_, ?_, ?_⟩
  · intro i h
    exact absurd h (by simp [dedupInit])
  · intro i h
    exact absurd h (by simp [dedupInit])
  · intro v h
    exact absurd h (by simp [dedupInit])
  · intro i v w h
    exact absurd h (by simp [dedupInit])
  · intro i v h
    exact absurd h (by simp [dedupInit])
  · intro _ i
    rfl
  · intro h
    exact absurd h (by simp [dedupInit])

theorem dedupInv_step {n : Nat} {V : Type} {p : V} {s s2 : DedupState n V}
    (hinv : DedupInv n V p s) (hstep : DedupStep n V p s s2) :
    DedupInv n V p s2 := by
  cases hstep with
  | checkHit i v hci hcv =>
    refine ⟨?_, ?_, hinv.cacheVal, ?_, ?_, ?_, ?_⟩ <;> dsimp only
    · intro j hj
      have hf := hinv.lockFetch j hj
      by_cases hji : j = i
      · subst hji
        rw [hci] at hf
        exact absurd hf (by simp)
      · rw [Function.update_noteq hji]
        exact hf
    · intro j hj
      by_cases hji : j = i
      · subst hji
        rw [Function.update_same] at hj
        exact absurd hj (by simp)
      · rw [Function.update_noteq hji] at hj
        exact hinv.fetchState j hj
    · intro j v2 w hj
      by_cases hji : j = i
      · subst hji
        rw [Function.update_same] at hj
        injection hj with h1 _
        exact h1.symm.trans (hinv.cacheVal v hcv)
      · rw [Function.update_noteq hji] at hj
        exact hinv.doneVal j v2 w hj
    · intro j v2 hj
      rw [hcv]
      rfl
    · intro hc
      rw [hcv] at hc
      exact absurd hc (by simp)
    · intro hsome
      refine existsUnique_didNet_congr ?_ (hinv.netOne (by rw [hcv]; rfl))
      intro j
      exact (didNet_update_eq s.callers i (.done v false) (by rw [hci]; rfl) j).symm
  | checkMiss i hci hcv =>
    refine ⟨?_, ?_, hinv.cacheVal, ?_, ?_, ?_, ?_⟩ <;> dsimp only
    · intro j hj
      have hf := hinv.lockFetch j hj
      by_cases hji : j = i
      · subst hji
        rw [hci] at hf
        exact absurd hf (by simp)
      · rw [Function.update_noteq hji]
        exact hf
    · intro j hj
      by_cases hji : j = i
      · subst hji
        rw [Function.update_same] at hj
        exact absurd hj (by simp)
      · rw [Function.update_noteq hji] at hj
        exact hinv.fetchState j hj
    · intro j v2 w hj
      by_cases hji : j = i
      · subst hji
        rw [Function.update_same] at hj
        exact absurd hj (by simp)
      · rw [Function.update_noteq hji] at hj
        exact hinv.doneVal j v2 w hj
    · intro j v2 hj
      by_cases hji : j = i
      · subst hji
        rw [Function.update_same] at hj
        exact absurd hj (by simp)
      · rw [Function.update_noteq hji] at hj
        exact hinv.doneHitCache j v2 hj
    · intro hc j
      rw [didNet_update_eq s.callers i .waitingLock (by rw [hci]; rfl) j]
      exact hinv.netNone hcv j
    · intro hsome
      rw [hcv] at hsome
      exact absurd hsome (by simp)
  | acquireHit i v hci hl hcv =>
    refine ⟨?_, ?_, hinv.cacheVal, ?_, ?_, ?_, ?_⟩ <;> dsimp only
    · intro j hj
      rw [hl] at hj
      exact absurd hj (by simp)
    · intro j hj
      by_cases hji : j = i
      · subst hji
        rw [Function.update_same] at hj
        exact absurd hj (by simp)
      · rw [Function.update_noteq hji] at hj
        exact hinv.fetchState j hj
    · intro j v2 w hj
      by_cases hji : j = i
      · subst hji
        rw [Function.update_same] at hj
        injection hj with h1 _
        exact h1.symm.trans (hinv.cacheVal v hcv)
      · rw [Function.update_noteq hji] at hj
        exact hinv.doneVal j v2 w hj
    · intro j v2 hj
      rw [hcv]
      rfl
    · intro hc
      rw [hcv] at hc
      exact absurd hc (by simp)
    · intro hsome
      refine existsUnique_didNet_congr ?_ (hinv.netOne (by rw [hcv]; rfl))
      intro j
      exact (didNet_update_eq s.callers i (.done v false) (by rw [hci]; rfl) j).symm
  | acquireMiss i hci hl hcv =>
    refine ⟨?_, ?_, ?_, ?_, ?_, ?_, ?_⟩ <;> dsimp only
    · intro j hj
      have hij : i = j := by
        injection hj
      subst hij
      rw [Function.update_same]
    · intro j hj
      by_cases hji : j = i
      · subst hji
        exact ⟨rfl, hcv⟩
      · rw [Function.update_noteq hji] at hj
        have := (hinv.fetchState j hj).1
        rw [hl] at this
        exact absurd this (by simp)
    · intro v2 h
      rw [hcv] at h
      exact absurd h (by simp)
    · intro j v2 w hj
      by_cases hji : j = i
      · subst hji
        rw [Function.update_same] at hj
        exact absurd hj (by simp)
      · rw [Function.update_noteq hji] at hj
        exact hinv.doneVal j v2 w hj
    · intro j v2 hj
      by_cases hji : j = i
      · subst hji
        rw [Function.update_same] at hj
        exact absurd hj (by simp)
      · rw [Function.update_noteq hji] at hj
        exact hinv.doneHitCache j v2 hj
    · intro hc j
      rw [didNet_update_eq s.callers i .fetching (by rw [hci]; rfl) j]
      exact hinv.netNone hcv j
    · intro hsome
      rw [hcv] at hsome
      exact absurd hsome (by simp)
  | complete i hci hl =>
    have hcachenone : s.cache = none := (hinv.fetchState i hci).2
    have hallnone := hinv.netNone hcachenone
    refine ⟨?_, ?_, ?_, ?_, ?_, ?_, ?_⟩ <;> dsimp only
    · intro j hj
      exact absurd hj (by simp)
    · intro j hj
      by_cases hji : j = i
      · subst hji
        rw [Function.update_same] at hj
        exact absurd hj (by simp)
      · rw [Function.update_noteq hji] at hj
        have := (hinv.fetchState j hj).1
        rw [hl] at this
        injection this with h2
        exact absurd h2.symm hji
    · intro v2 h
      injection h with h2
      exact h2.symm
    · intro j v2 w hj
      by_cases hji : j = i
      · subst hji
        rw [Function.update_same] at hj
        injection hj with h1 _
        exact h1.symm
      · rw [Function.update_noteq hji] at hj
        exact hinv.doneVal j v2 w hj
    · intro j v2 hj
      rfl
    · intro hc
      exact absurd hc (by simp)
    · intro _
      refine ⟨i, ?_, ?_⟩
      · show (Function.update s.callers i (CallerState.done p true) i).didNet = true
        rw [Function.update_same]
        rfl
      · intro y hy
        by_cases hyi : y = i
        · exact hyi
        · rw [Function.update_noteq hyi] at hy
          rw [hallnone y] at hy
          exact absurd hy (by simp)

theorem dedupInv_reachable {n : Nat} {V : Type} {p : V} {s : DedupState n V}
    (h : Relation.ReflTransGen (DedupStep n V p) (dedupInit n V) s) :
    DedupInv n V p s := by
  induction h with
  | refl => exact dedupInv_init n V p
  | tail hsteps hstep ih => exact dedupInv_step ih hstep

/-- C1: in every schedule of n concurrent fetches of the same key from an
initially empty cache, once every caller has returned, exactly one caller
has issued the real network GET and every caller has returned the upstream
payload p. -/
theorem dedup_single_network_call {V : Type} (n : Nat) (hn : 2 ≤ n) (p : V)
    (s : DedupState n V)
    (hreach : Relation.ReflTransGen (DedupStep n V p) (dedupInit n V) s)
    (hdone : ∀ i, (s.callers i).isDone = true) :
    (∃! i : Fin n, (s.callers i).didNet = true) ∧
    (∀ i, ∃ w, s.callers i = .done p w) := by
  have hinv := dedupInv_reachable hreach
  have hall : ∀ i, ∃ w, s.callers i = CallerState.done p w := by
    intro i
    have hdi := hdone i
    cases hci : s.callers i with
    | notStarted => rw [hci] at hdi; exact absurd hdi (by simp [CallerState.isDone])
    | waitingLock => rw [hci] at hdi; exact absurd hdi (by simp [CallerState.isDone])
    | fetching => rw [hci] at hdi; exact absurd hdi (by simp [CallerState.isDone])
    | done v w =>
      refine ⟨w, ?_⟩
      rw [← hinv.doneVal i v w hci]
  have hsome : s.cache.isSome = true := by
    obtain ⟨w, hw⟩ := hall ⟨0, by omega⟩
    cases w with
    | false => exact hinv.doneHitCache ⟨0, by omega⟩ p hw
    | true =>
      cases hcache : s.cache with
      | some v => rfl
      | none =>
        have := hinv.netNone hcache ⟨0, by omega⟩
        rw [hw] at this
        exact absurd this (by simp [CallerState.didNet])
  exact ⟨hinv.netOne hsome, hall⟩

/-- Witness for C1: the concrete schedule is reachable, both callers finish
with payload 7, and exactly one (caller 0) issued the network GET. -/
theorem dedup_single_network_call_witness :
    (∃! i : Fin 2, (dedupDemoFinal.callers i).didNet = true) ∧
    (∀ i, ∃ w, dedupDemoFinal.callers i = .done 7 w) := by
  have h1 : DedupStep 2 Nat 7 (dedupInit 2 Nat)
      { dedupInit 2 Nat with
        callers := Function.update (dedupInit 2 Nat).callers 0 .waitingLock } :=
    DedupStep.checkMiss (dedupInit 2 Nat) 0 rfl rfl
  have h2 := DedupStep.acquireMiss (n := 2) (V := Nat) (p := 7)
    { dedupInit 2 Nat with
      callers := Function.update (dedupInit 2 Nat).callers 0 .waitingLock }
    0 (by decide) rfl rfl
  have h3 := DedupStep.complete (n := 2) (V := Nat) (p := 7)
    { dedupInit 2 Nat with
      lockHolder := some 0,
      callers := Function.update (Function.update (dedupInit 2 Nat).callers 0
        .waitingLock) 0 .fetching }
    0 (by decide) rfl
  have h4 := DedupStep.checkHit (n := 2) (V := Nat) (p := 7)
    { cache := some 7, lockHolder := none,
      callers := Function.update (Function.update (Function.update
        (dedupInit 2 Nat).callers 0 .waitingLock) 0 .fetching) 0 (.done 7 true) }
    1 7 (by decide) rfl
  have hreach : Relation.ReflTransGen (DedupStep 2 Nat 7) (dedupInit 2 Nat)
      dedupDemoFinal :=
    Relation.ReflTransGen.head h1 (Relation.ReflTransGen.head h2
      (Relation.ReflTransGen.head h3 (Relation.ReflTransGen.head h4
        Relation.ReflTransGen.refl)))
  exact dedup_single_network_call 2 (by omega) 7 dedupDemoFinal hreach (by decide)

end FedditApi
